import Mathlib

/-!
Shallow embedding of the node state machine of the bitcoin-prototype
repository (files src/src/node.py, src/src/validations.py,
src/src/transaction.py, src/src/block.py, src/src/data_classes.py,
src/src/constants.py).

Byte strings are modelled as lists of naturals.  The cryptographic adapter
(SHA-256, Ed25519) is external to the core (spec section 4.1) and is modelled
as a parameter structure `Crypto`; an executable instance `toyCrypto` with a
provably injective hash is supplied for concrete evaluation.

Python functions that can fall off the end (returning `None`) are modelled
with `Option Bool` results plus the truthiness coercion `pyTruthy`; Python
exceptions (KeyError, IndexError, pop from empty list, ValueError) are
modelled with `Option` results.  Loops whose termination is not structural
(the fork walk, the rollback loop) take explicit fuel; the rollback loop is
invoked with fuel strictly larger than the chain length, which makes the
fuel-exhaustion branch unreachable.
-/

set_option maxRecDepth 40000

namespace BitcoinProto

abbrev Bytes := List Nat

/-- constants.py: GENESIS_BLOCK_PREV = BlockHash(b"Genesis"). -/
def GENESIS_BLOCK_PREV : Bytes := [71, 101, 110, 101, 115, 105, 115]

/-- constants.py: BLOCK_SIZE = 10. -/
def BLOCK_SIZE : Nat := 10

/-- constants.py: NUM_OF_COINBASE_PER_BLOCK = 1. -/
def NUM_OF_COINBASE_PER_BLOCK : Nat := 1

/-- constants.py: NUM_OF_MEMPOOL_TXS_PER_BLOCK = BLOCK_SIZE - NUM_OF_COINBASE_PER_BLOCK. -/
def NUM_OF_MEMPOOL_TXS_PER_BLOCK : Nat := BLOCK_SIZE - NUM_OF_COINBASE_PER_BLOCK

/-- constants.py: SHA256_DIGEST_LEN = 256 // 8. -/
def SHA256_DIGEST_LEN : Nat := 32

/-- The cryptographic adapter of cryptographic_utils.py, as a contract:
`hash` is SHA-256, `verify msg sig pk` is Ed25519 verification, and
`sign msg priv` is Ed25519 signing. -/
structure Crypto where
  hash : Bytes → Bytes
  verify : Bytes → Bytes → Bytes → Bool
  sign : Bytes → Bytes → Bytes

/-- transaction.py: class Transaction (output, input, signature);
`input` is `none` exactly for coinbase transactions. -/
structure Transaction where
  output : Bytes
  input : Option Bytes
  signature : Bytes
deriving DecidableEq, Repr

/-- transaction.py: Transaction.get_id — sha256 of output + (input or b'') + signature. -/
def Transaction.get_id (C : Crypto) (t : Transaction) : Bytes :=
  C.hash (t.output ++ t.input.getD [] ++ t.signature)

/-- transaction.py: Transaction.is_coinbase — true iff input is None. -/
def Transaction.is_coinbase (t : Transaction) : Bool :=
  t.input.isNone

/-- block.py: class Block (prev_block_hash, transactions). -/
structure Block where
  prev_block_hash : Bytes
  transactions : List Transaction
deriving DecidableEq, Repr

/-- block.py: Block.get_hash — sha256 of the concatenated transaction ids
followed by the previous block hash. -/
def Block.get_hash (C : Crypto) (b : Block) : Bytes :=
  C.hash ((b.transactions.map (Transaction.get_id C)).foldr (fun x acc => x ++ acc) []
    ++ b.prev_block_hash)

/-- block.py: Block.get_transactions. -/
def Block.get_transactions (b : Block) : List Transaction :=
  b.transactions

/-- block.py: Block.get_prev_block_hash. -/
def Block.get_prev_block_hash (b : Block) : Bytes :=
  b.prev_block_hash

/-- data_classes.py: NodeState — blockchain, utxo, mempool. -/
structure NodeState where
  blockchain : List Block
  utxo : List Transaction
  mempool : List Transaction
deriving DecidableEq, Repr

/-- data_classes.py: ForkData — fork_block_hash, new_branch, new_branch_hashes. -/
structure ForkData where
  fork_block_hash : Bytes
  new_branch : List Block
  new_branch_hashes : List Bytes
deriving DecidableEq, Repr

/-- Python list.index, specialised to hash lists (call sites guarantee the
element is present; on an absent element this total model returns the
length). -/
def listIndex (x : Bytes) : List Bytes → Nat
  | [] => 0
  | y :: ys => if y = x then 0 else listIndex x ys + 1

/-- data_classes.py: ForkData.get_potential_forked_chain_len —
main_hash_chain.index(fork_block_hash) + 1 + len(new_branch). -/
def ForkData.get_potential_forked_chain_len (fd : ForkData)
    (main_hash_chain : List Bytes) : Nat :=
  listIndex fd.fork_block_hash main_hash_chain + 1 + fd.new_branch.length

/-- The node's `_id_to_transaction` dict, as an association list; later
insertions are prepended and shadow earlier ones, matching dict overwrite. -/
abbrev IdIndex := List (Bytes × Transaction)

/-- dict.get: first binding of the key, `none` when absent. -/
def idxLookup : IdIndex → Bytes → Option Transaction
  | [], _ => none
  | (k, v) :: rest, key => if k = key then some v else idxLookup rest key

/-- dict assignment `d[k] = v`. -/
def idxInsert (idx : IdIndex) (k : Bytes) (v : Transaction) : IdIndex :=
  (k, v) :: idx

/-- Truthiness of a Python value that is either a bool or None:
`none` (Python None) is falsy. -/
def pyTruthy : Option Bool → Bool
  | none => false
  | some b => b

/-- node.py: class Node — key pair, state and the id-to-transaction index.
Peer connections are modelled outside the node: operations that notify
peers take the connection list (peer names) as an argument and return the
list of emitted notifications. -/
structure Node where
  private_key : Bytes
  public_key : Bytes
  state : NodeState
  id_to_transaction : IdIndex
deriving DecidableEq, Repr

/-- validations.py: validate_transaction_pre_mempool_access. -/
def validate_transaction_pre_mempool_access (C : Crypto) (transaction : Transaction)
    (state : NodeState) (id_to_transaction : IdIndex) : Bool :=
  match transaction.input with
  | none => false
  | some inp =>
    if inp.length ≠ SHA256_DIGEST_LEN then false
    else
      match idxLookup id_to_transaction inp with
      | none => false
      | some input_being_spent =>
        if ¬ C.verify (inp ++ transaction.output) transaction.signature
            input_being_spent.output then false
        else if ¬ (state.utxo.map (Transaction.get_id C)).contains inp then false
        else ¬ (state.mempool.map Transaction.input).contains (some inp)

/-- validations.py: validate_block_structure — hash matches, size bound,
exact number of coinbase transactions. -/
def validate_block_structure (C : Crypto) (block : Block) (block_hash : Bytes) : Bool :=
  decide (block.get_hash C = block_hash)
    && decide (block.get_transactions.length ≤ BLOCK_SIZE)
    && decide ((block.get_transactions.filter (fun t => t.is_coinbase)).length
        = NUM_OF_COINBASE_PER_BLOCK)

/-- node.py: get_latest_hash on a state — hash of the last block, or the
genesis sentinel for an empty chain. -/
def stateLatestHash (C : Crypto) (s : NodeState) : Bytes :=
  match s.blockchain.getLast? with
  | some b => b.get_hash C
  | none => GENESIS_BLOCK_PREV

/-- node.py: Node.get_latest_hash. -/
def Node.get_latest_hash (C : Crypto) (n : Node) : Bytes :=
  stateLatestHash C n.state

/-- node.py: _get_blockchain_hashes — genesis sentinel followed by the
hashes of the chain blocks. -/
def get_blockchain_hashes (C : Crypto) (s : NodeState) : List Bytes :=
  GENESIS_BLOCK_PREV :: s.blockchain.map (Block.get_hash C)

/-- node.py: get_block of a peer — linear search of its chain, ValueError
(`none`) when absent. -/
def stateGetBlock (C : Crypto) (s : NodeState) (block_hash : Bytes) : Option Block :=
  s.blockchain.find? (fun b => b.get_hash C = block_hash)

/-- node.py: _get_my_unspent_transactions — utxo entries whose output is
this node's address. -/
def get_my_unspent_transactions (n : Node) : List Transaction :=
  n.state.utxo.filter (fun t => t.output = n.public_key)

/-- node.py: _create_coinbase — output is this node's public key, no input,
and the random signature bytes supplied by the environment. -/
def create_coinbase (n : Node) (random_bits : Bytes) : Transaction :=
  { output := n.public_key, input := none, signature := random_bits }

/-- node.py: _sign_new_transaction — a transaction to the target spending
the given unspent coin, signed over the spent id concatenated with the
target. -/
def sign_new_transaction (C : Crypto) (n : Node)
    (unspent_transaction_id : Bytes) (target_public_key : Bytes) : Transaction :=
  { output := target_public_key
    input := some unspent_transaction_id
    signature := C.sign (unspent_transaction_id ++ target_public_key) n.private_key }

/-- node.py: _introduce_valid_transaction_into_state — drops the transaction
and any input-conflicting entry from the mempool, moves the spent coin out
of the utxo (non-coinbase only), appends the transaction to the utxo and
records it in the id index. -/
def introduce_valid_transaction_into_state (C : Crypto) (transaction : Transaction)
    (state : NodeState) (idx : IdIndex) : NodeState × IdIndex :=
  let mempool1 := state.mempool.filter
    (fun t => t ≠ transaction ∧ t.input ≠ transaction.input)
  let utxo1 :=
    match transaction.input with
    | none => state.utxo
    | some inp => state.utxo.filter (fun t => t.get_id C ≠ inp)
  ({ blockchain := state.blockchain
     utxo := utxo1 ++ [transaction]
     mempool := mempool1 },
   idxInsert idx (transaction.get_id C) transaction)

/-- node.py: _validate_block_and_update_state.  The third component is the
Python return value: `some false` on a failed check, and — because the
source has no `return True` — `none` (Python `None`) after a successful
update. -/
def validate_block_and_update_state (C : Crypto) (block : Block) (block_hash : Bytes)
    (state : NodeState) (idx : IdIndex) : NodeState × IdIndex × Option Bool :=
  if ¬ validate_block_structure C block block_hash then
    (state, idx, some false)
  else if ¬ ((block.get_transactions.filter (fun t => ¬ t.is_coinbase)).all
      (fun t => validate_transaction_pre_mempool_access C t state idx)) then
    (state, idx, some false)
  else
    let p := block.get_transactions.foldl
      (fun (p : NodeState × IdIndex) t =>
        introduce_valid_transaction_into_state C t p.1 p.2)
      (state, idx)
    ({ p.1 with blockchain := p.1.blockchain ++ [block] }, p.2, none)

/-- node.py: _add_new_branch_to_state — appends the branch blocks in order,
stopping as soon as `_validate_block_and_update_state` is not truthy. -/
def add_new_branch_to_state (C : Crypto) :
    List (Block × Bytes) → NodeState → IdIndex → NodeState × IdIndex
  | [], state, idx => (state, idx)
  | (block, block_hash) :: rest, state, idx =>
    let r := validate_block_and_update_state C block block_hash state idx
    if pyTruthy r.2.2 then add_new_branch_to_state C rest r.1 r.2.1
    else (r.1, r.2.1)

/-- node.py: the lookups `self._id_to_transaction[t.input]` for the
non-coinbase transactions of a rolled-back block; a missing key is a
Python KeyError, modelled as `none`. -/
def lookupSpent (idx : IdIndex) : List Transaction → Option (List Transaction)
  | [] => some []
  | t :: ts =>
    match t.input.bind (idxLookup idx) with
    | none => none
    | some v =>
      match lookupSpent idx ts with
      | none => none
      | some vs => some (v :: vs)

/-- node.py: _rollback_latest_block — pops the tip block, removes its
transactions from the utxo, restores the coins it spent via the id index,
and purges mempool entries spending coins created by the popped block.
`none` models the IndexError of popping an empty chain or a KeyError of the
index lookups. -/
def rollback_latest_block (C : Crypto) (state : NodeState) (idx : IdIndex) :
    Option (NodeState × Block) :=
  match state.blockchain.getLast? with
  | none => none
  | some latest_block =>
    let block_transactions := latest_block.get_transactions
    let block_transaction_ids := block_transactions.map (Transaction.get_id C)
    let utxo1 := state.utxo.filter (fun t => ¬ block_transactions.contains t)
    match lookupSpent idx (block_transactions.filter (fun t => ¬ t.is_coinbase)) with
    | none => none
    | some spent =>
      some ({ blockchain := state.blockchain.dropLast
              utxo := utxo1 ++ spent
              mempool := state.mempool.filter
                (fun t => ¬ (block_transaction_ids.map some).contains t.input) },
            latest_block)

/-- node.py: the while loop of _rollback_state_to_forking_point, with fuel.
The loop variable `current_hash` starts at the node's latest hash and then
follows the popped block's prev pointer. -/
def rollbackLoop (C : Crypto) (fork_hash : Bytes) :
    Nat → Bytes → NodeState → IdIndex → Option NodeState
  | 0, current_hash, state, _ =>
    if current_hash = fork_hash then some state else none
  | fuel + 1, current_hash, state, idx =>
    if current_hash = fork_hash then some state
    else
      match rollback_latest_block C state idx with
      | none => none
      | some (state1, rolled_back_block) =>
        rollbackLoop C fork_hash fuel rolled_back_block.get_prev_block_hash state1 idx

/-- node.py: _rollback_state_to_forking_point.  The fuel
`length + 1` strictly exceeds the number of pops any run can make (a pop
from the empty chain already yields `none`), so the fuel-exhaustion branch
is unreachable and the semantics is exactly the Python loop. -/
def rollback_state_to_forking_point (C : Crypto) (fork_hash : Bytes)
    (state : NodeState) (idx : IdIndex) : Option NodeState :=
  rollbackLoop C fork_hash (state.blockchain.length + 1)
    (stateLatestHash C state) state idx

/-- node.py: _reorg_blockchain — copy the state, roll it back to the fork
point, then add the new branch; also returns the updated id index. -/
def reorg_blockchain (C : Crypto) (n : Node) (fork_data : ForkData) :
    Option (NodeState × IdIndex) :=
  match rollback_state_to_forking_point C fork_data.fork_block_hash
      n.state n.id_to_transaction with
  | none => none
  | some state1 =>
    some (add_new_branch_to_state C
      (fork_data.new_branch.zip fork_data.new_branch_hashes)
      state1 n.id_to_transaction)

/-- node.py: the while loop of _find_forking_point, with fuel: walk back
from the given hash through the sender, prepending blocks and hashes, until
a hash on our chain is reached.  `getBlock` is the sender's get_block;
its `none` is the ValueError of an unknown block. -/
def findForkLoop (C : Crypto) (chain_hashes : List Bytes)
    (getBlock : Bytes → Option Block) :
    Nat → Bytes → List Block → List Bytes → Option ForkData
  | fuel, running_hash, new_branch, new_branch_hashes =>
    if chain_hashes.contains running_hash then
      some { fork_block_hash := running_hash
             new_branch := new_branch
             new_branch_hashes := new_branch_hashes }
    else
      match fuel with
      | 0 => none
      | fuel + 1 =>
        match getBlock running_hash with
        | none => none
        | some running_block =>
          findForkLoop C chain_hashes getBlock fuel
            running_block.get_prev_block_hash
            (running_block :: new_branch)
            (running_hash :: new_branch_hashes)

/-- node.py: _find_forking_point. -/
def find_forking_point (C : Crypto) (n : Node) (block_hash : Bytes)
    (getBlock : Bytes → Option Block) (fuel : Nat) : Option ForkData :=
  findForkLoop C (get_blockchain_hashes C n.state) getBlock fuel block_hash [] []

/-- node.py: _publish_latest_block — notify every connection of the node's
latest hash; the result is the list of emitted (peer, hash) notifications. -/
def publish_latest_block (C : Crypto) (n : Node) (connections : List Nat) :
    List (Nat × Bytes) :=
  connections.map (fun p => (p, n.get_latest_hash C))

/-- node.py: get_introduced_to_new_block.  Returns the updated node together
with the (peer, hash) notifications published on adoption; the outer `none`
models an uncaught exception inside the reorg (only a ValueError during the
fork walk is caught by the source). -/
def get_introduced_to_new_block (C : Crypto) (n : Node) (block_hash : Bytes)
    (getBlock : Bytes → Option Block) (fuel : Nat) (connections : List Nat) :
    Option (Node × List (Nat × Bytes)) :=
  let curr_hash_chain := get_blockchain_hashes C n.state
  if curr_hash_chain.contains block_hash then some (n, [])
  else
    match find_forking_point C n block_hash getBlock fuel with
    | none => some (n, [])
    | some fork_data =>
      if fork_data.get_potential_forked_chain_len curr_hash_chain
          ≤ curr_hash_chain.length then some (n, [])
      else
        match reorg_blockchain C n fork_data with
        | none => none
        | some (new_state, idx1) =>
          if n.state.blockchain.length < new_state.blockchain.length then
            let n1 : Node := { n with state := new_state, id_to_transaction := idx1 }
            some (n1, publish_latest_block C n1 connections)
          else
            some ({ n with id_to_transaction := idx1 }, [])

/-- node.py: _publish_new_transaction — the peers that receive an
add_transaction_to_mempool call: those whose mempool does not already
contain the transaction's id.  `peerMempool` gives each peer's mempool. -/
def publish_new_transaction (C : Crypto) (transaction : Transaction)
    (connections : List Nat) (peerMempool : Nat → List Transaction) : List Nat :=
  connections.filter
    (fun p => ¬ ((peerMempool p).map (Transaction.get_id C)).contains
      (transaction.get_id C))

/-- node.py: _add_new_transaction_to_mempool — append to the mempool, record
in the id index, then notify connections; returns the node and the called
peers. -/
def add_new_transaction_to_mempool (C : Crypto) (n : Node) (transaction : Transaction)
    (connections : List Nat) (peerMempool : Nat → List Transaction) :
    Node × List Nat :=
  ({ n with
      state := { n.state with mempool := n.state.mempool ++ [transaction] }
      id_to_transaction :=
        idxInsert n.id_to_transaction (transaction.get_id C) transaction },
   publish_new_transaction C transaction connections peerMempool)

/-- node.py: add_transaction_to_mempool — validate, then admit and
propagate; on a failed validation nothing changes and no peer is called. -/
def add_transaction_to_mempool (C : Crypto) (n : Node) (transaction : Transaction)
    (connections : List Nat) (peerMempool : Nat → List Transaction) :
    Bool × Node × List Nat :=
  if validate_transaction_pre_mempool_access C transaction n.state
      n.id_to_transaction then
    let r := add_new_transaction_to_mempool C n transaction connections peerMempool
    (true, r.1, r.2)
  else
    (false, n, [])

/-- node.py: _get_unspent_owned_transaction — owned utxo entries minus the
ones frozen by a mempool entry; the outer `none` is the KeyError of a
missing index entry, the inner option is the Python None when no coin is
available.  The arbitrary set.pop of the source is modelled as taking the
first available coin in utxo order. -/
def get_unspent_owned_transaction (C : Crypto) (n : Node) :
    Option (Option Transaction) :=
  let owned_funds := get_my_unspent_transactions n
  let owned_funds_ids := owned_funds.map (Transaction.get_id C)
  match lookupSpent n.id_to_transaction
      (n.state.mempool.filter
        (fun t => (owned_funds_ids.map some).contains t.input)) with
  | none => none
  | some frozen_funds =>
    some (owned_funds.filter (fun c => ¬ frozen_funds.contains c)).head?

/-- node.py: create_transaction — none available gives Python None with no
side effect; otherwise sign a spend of an available coin and admit it to
the own mempool (which propagates).  The outer `none` is a KeyError. -/
def create_transaction (C : Crypto) (n : Node) (target_public_key : Bytes)
    (connections : List Nat) (peerMempool : Nat → List Transaction) :
    Option (Option Transaction × Node × List Nat) :=
  match get_unspent_owned_transaction C n with
  | none => none
  | some none => some (none, n, [])
  | some (some unspent_transaction) =>
    let new_transaction := sign_new_transaction C n
      (unspent_transaction.get_id C) target_public_key
    let r := add_new_transaction_to_mempool C n new_transaction
      connections peerMempool
    some (some new_transaction, r.1, r.2)

/-- node.py: _introduce_valid_block_into_state — introduce every block
transaction, then append the block to the chain (publication is handled by
the caller model). -/
def introduce_valid_block_into_state (C : Crypto) (n : Node) (block : Block) : Node :=
  let p := block.get_transactions.foldl
    (fun (p : NodeState × IdIndex) t =>
      introduce_valid_transaction_into_state C t p.1 p.2)
    (n.state, n.id_to_transaction)
  { n with
      state := { p.1 with blockchain := p.1.blockchain ++ [block] }
      id_to_transaction := p.2 }

/-- node.py: mine_block — one coinbase plus the head of the mempool, linked
to the current latest hash, applied to the own state without re-validation
and published; returns the new block hash, the node and the notifications. -/
def mine_block (C : Crypto) (n : Node) (random_bits : Bytes)
    (connections : List Nat) : Bytes × Node × List (Nat × Bytes) :=
  let coinbase_transactions :=
    List.replicate NUM_OF_COINBASE_PER_BLOCK (create_coinbase n random_bits)
  let mempool_transactions := n.state.mempool.take NUM_OF_MEMPOOL_TXS_PER_BLOCK
  let new_block : Block :=
    { prev_block_hash := n.get_latest_hash C
      transactions := coinbase_transactions ++ mempool_transactions }
  let n1 := introduce_valid_block_into_state C n new_block
  (new_block.get_hash C, n1, publish_latest_block C n1 connections)

/-- node.py: clear_mempool. -/
def clear_mempool (n : Node) : Node :=
  { n with state := { n.state with mempool := [] } }

/-! ### An executable collision-free stand-in for the hash adapter

The spec treats the crypto adapter as an external contract (section 4.1).
For concrete evaluation we supply a toy adapter whose hash is injective:
every byte value is turned into its binary digits, the digit strings are
joined with the separator digit 2, and the resulting base-3 digit string is
folded into a single natural carried in the last cell of a 32-cell digest. -/

/-- Binary digits of `n`, least significant first, computed with fuel
(`digitsFuel n n` is total because `n` bounds the digit count). -/
def digitsFuel : Nat → Nat → List Nat
  | _, 0 => []
  | 0, _ + 1 => []
  | fuel + 1, n + 1 => (n + 1) % 2 :: digitsFuel fuel ((n + 1) / 2)

/-- Binary digits of a natural, least significant first. -/
def natDigits (n : Nat) : List Nat :=
  digitsFuel n n

/-- Value of a binary digit string, least significant digit first. -/
def digitsVal2 (ds : List Nat) : Nat :=
  ds.foldr (fun d acc => d + 2 * acc) 0

/-- Value of a base-3 digit string, least significant digit first. -/
def digitsVal3 (ds : List Nat) : Nat :=
  ds.foldr (fun d acc => d + 3 * acc) 0

/-- The digit strings of the list elements joined by the separator digit 2. -/
def sepStream : List Nat → List Nat
  | [] => []
  | a :: l => natDigits a ++ 2 :: sepStream l

/-- An injective encoding of byte strings into a single natural. -/
def listEncode (l : List Nat) : Nat :=
  digitsVal3 (sepStream l)

/-- The toy 32-cell digest: 31 zero cells and the encoded input. -/
def toyHash (l : Bytes) : Bytes :=
  List.replicate 31 0 ++ [listEncode l]

/-- The toy adapter: injective hash, and signatures that are the signer's
key followed by the message (nodes use equal private and public keys in the
concrete scenarios, so signing and verification agree). -/
def toyCrypto : Crypto where
  hash := toyHash
  verify := fun msg sig pk => decide (sig = pk ++ msg)
  sign := fun msg priv => priv ++ msg

/-! ### Invariants and reachability -/

/-- The chain links up when read from the given previous-hash value:
each block's prev_block_hash is the running hash. -/
def linkedFrom (C : Crypto) : Bytes → List Block → Prop
  | _, [] => True
  | p, b :: rest => b.get_prev_block_hash = p ∧ linkedFrom C (b.get_hash C) rest

/-- Spec P1: block i points to block i-1, and block 0 points to the genesis
sentinel. -/
def ChainWellLinked (C : Crypto) (s : NodeState) : Prop :=
  linkedFrom C GENESIS_BLOCK_PREV s.blockchain

/-- Spec P3, first half: no two mempool entries share an input. -/
def MempoolNoDoubleSpend (s : NodeState) : Prop :=
  s.mempool.Pairwise (fun a b => a.input ≠ b.input)

/-- Spec P3, second half: no mempool entry is coinbase. -/
def MempoolNoCoinbase (s : NodeState) : Prop :=
  ∀ t ∈ s.mempool, t.input ≠ none

/-- Spec P4: every mempool entry spends the id of some utxo entry. -/
def MempoolInputsUnspent (C : Crypto) (s : NodeState) : Prop :=
  ∀ t ∈ s.mempool, ∃ u ∈ s.utxo, t.input = some (u.get_id C)

/-- Every utxo entry is recorded in the id index under its own id. -/
def UtxoRegistered (C : Crypto) (n : Node) : Prop :=
  ∀ u ∈ n.state.utxo, idxLookup n.id_to_transaction (u.get_id C) = some u

/-- Every binding of the id index maps an id to a transaction having it. -/
def IndexCoherent (C : Crypto) (idx : IdIndex) : Prop :=
  ∀ k v, idxLookup idx k = some v → v.get_id C = k

/-- The freshly observed transactions `ts` do not collide (under get_id)
with each other or with anything recorded in the index — the standard
collision-freeness assumption on SHA-256 along a run, stated per step. -/
def IdsCompatible (C : Crypto) (idx : IdIndex) (ts : List Transaction) : Prop :=
  ∀ t1 ∈ ts ++ idx.map Prod.snd, ∀ t2 ∈ ts ++ idx.map Prod.snd,
    t1.get_id C = t2.get_id C → t1 = t2

instance (C : Crypto) (idx : IdIndex) (ts : List Transaction) :
    Decidable (IdsCompatible C idx ts) := by
  unfold IdsCompatible
  infer_instance

/-- All transactions carried by a branch of blocks, in order. -/
def branchTransactions (branch : List Block) : List Transaction :=
  branch.foldr (fun b acc => b.transactions ++ acc) []

/-- The hash of the last block of `l`, or `p` when `l` is empty (the tip
hash of a chain suffix hanging below previous-hash `p`). -/
def tipFrom (C : Crypto) (p : Bytes) (l : List Block) : Bytes :=
  match l.getLast? with
  | some b => b.get_hash C
  | none => p

/-- The branch recorded by the fork walk links up: the first block points
to `p` and every further block points to the recorded hash of its
predecessor pair. -/
def branchLinked (C : Crypto) : Bytes → List (Block × Bytes) → Prop
  | _, [] => True
  | p, (b, h) :: rest => b.get_prev_block_hash = p ∧ branchLinked C h rest

/-- The combined mempool/utxo/index invariant carried through the
reachability induction: spec P3 and P4 plus registration and coherence of
the id index. -/
def StateInv (C : Crypto) (s : NodeState) (idx : IdIndex) : Prop :=
  MempoolNoDoubleSpend s
  ∧ MempoolNoCoinbase s
  ∧ MempoolInputsUnspent C s
  ∧ (∀ u ∈ s.utxo, idxLookup idx (u.get_id C) = some u)
  ∧ IndexCoherent C idx

/-- Node states reachable by the public operations (spec section 6), from a
fresh node.  Each step that brings new transactions into view carries the
collision-freeness side condition `IdsCompatible` for them. -/
inductive Reachable (C : Crypto) : Node → Prop where
  | init (private_key public_key : Bytes) :
      Reachable C
        { private_key := private_key
          public_key := public_key
          state := { blockchain := [], utxo := [], mempool := [] }
          id_to_transaction := [] }
  | add_transaction (n : Node) (t : Transaction) (conns : List Nat)
      (pm : Nat → List Transaction) :
      Reachable C n →
      IdsCompatible C n.id_to_transaction [t] →
      Reachable C (add_transaction_to_mempool C n t conns pm).2.1
  | create (n : Node) (target : Bytes) (conns : List Nat)
      (pm : Nat → List Transaction) (r : Option Transaction) (n1 : Node)
      (called : List Nat) :
      Reachable C n →
      (∀ t, r = some t → IdsCompatible C n.id_to_transaction [t]) →
      create_transaction C n target conns pm = some (r, n1, called) →
      Reachable C n1
  | mine (n : Node) (random_bits : Bytes) (conns : List Nat) :
      Reachable C n →
      IdsCompatible C n.id_to_transaction
        (create_coinbase n random_bits
          :: n.state.mempool.take NUM_OF_MEMPOOL_TXS_PER_BLOCK) →
      Reachable C (mine_block C n random_bits conns).2.1
  | introduced (n : Node) (block_hash : Bytes) (getBlock : Bytes → Option Block)
      (fuel : Nat) (conns : List Nat) (n1 : Node) (msgs : List (Nat × Bytes)) :
      Reachable C n →
      (∀ fd, find_forking_point C n block_hash getBlock fuel = some fd →
        IdsCompatible C n.id_to_transaction (branchTransactions fd.new_branch)) →
      get_introduced_to_new_block C n block_hash getBlock fuel conns
        = some (n1, msgs) →
      Reachable C n1
  | clear (n : Node) :
      Reachable C n → Reachable C (clear_mempool n)

/-! ### Helper lemmas -/

theorem foldl_introduce_blockchain (C : Crypto) (ts : List Transaction) :
    ∀ (s : NodeState) (idx : IdIndex),
      (ts.foldl (fun (p : NodeState × IdIndex) t =>
        introduce_valid_transaction_into_state C t p.1 p.2) (s, idx)).1.blockchain
      = s.blockchain := by
  induction ts with
  | nil => intro s idx; rfl
  | cons t ts ih =>
    intro s idx
    simpa [List.foldl_cons] using
      ih (introduce_valid_transaction_into_state C t s idx).1
        (introduce_valid_transaction_into_state C t s idx).2

theorem stateLatestHash_append (C : Crypto) (chain : List Block) (b : Block)
    (u : List Transaction) (m : List Transaction) :
    stateLatestHash C { blockchain := chain ++ [b], utxo := u, mempool := m }
      = b.get_hash C := by
  simp [stateLatestHash, List.getLast?_concat]

/-! ### Claim theorems -/

/-- C9: a transaction whose input is a 32-byte value that is not a key of
the id index is rejected by validate_transaction_pre_mempool_access with
result false (no exception is raised: the source checks
`input_being_spent is None` and returns False). -/
theorem validate_unknown_input_returns_false (C : Crypto) (t : Transaction)
    (s : NodeState) (idx : IdIndex) (i : Bytes)
    (hin : t.input = some i) (hlen : i.length = SHA256_DIGEST_LEN)
    (hunknown : idxLookup idx i = none) :
    validate_transaction_pre_mempool_access C t s idx = false := by
  unfold validate_transaction_pre_mempool_access
  rw [hin]
  simp [hlen, hunknown]

/-- Witness for C9 at a concrete input. -/
theorem validate_unknown_input_returns_false_witness :
    validate_transaction_pre_mempool_access toyCrypto
      { output := [1], input := some (List.replicate 32 0), signature := [2] }
      { blockchain := [], utxo := [], mempool := [] } [] = false :=
  validate_unknown_input_returns_false toyCrypto
    { output := [1], input := some (List.replicate 32 0), signature := [2] }
    { blockchain := [], utxo := [], mempool := [] } []
    (List.replicate 32 0) rfl (by decide) rfl

/-- C6: mine_block builds a block whose transactions are exactly one
coinbase paying the node's own address followed by the first
min(9, len(mempool)) mempool entries in order, whose prev_block_hash is the
node's latest hash before mining; the block is appended to the node's own
chain without re-validation, and the returned identifier is the new block's
hash, which is the node's latest hash afterwards. -/
theorem mine_block_spec (C : Crypto) (n : Node) (random_bits : Bytes)
    (conns : List Nat) :
    (mine_block C n random_bits conns).2.1.state.blockchain
      = n.state.blockchain
        ++ [{ prev_block_hash := n.get_latest_hash C
              transactions :=
                { output := n.public_key, input := none, signature := random_bits }
                  :: n.state.mempool.take 9 }]
    ∧ (mine_block C n random_bits conns).1
      = Block.get_hash C
          { prev_block_hash := n.get_latest_hash C
            transactions :=
              { output := n.public_key, input := none, signature := random_bits }
                :: n.state.mempool.take 9 }
    ∧ Node.get_latest_hash C (mine_block C n random_bits conns).2.1
      = (mine_block C n random_bits conns).1 := by
  refine ⟨?_, rfl, ?_⟩
  · show (introduce_valid_block_into_state C n _).state.blockchain = _
    unfold introduce_valid_block_into_state
    simp only [Block.get_transactions]
    rw [foldl_introduce_blockchain]
    rfl
  · show stateLatestHash C (introduce_valid_block_into_state C n _).state = _
    unfold introduce_valid_block_into_state
    simp only [Block.get_transactions]
    have h := foldl_introduce_blockchain C
      (({ prev_block_hash := n.get_latest_hash C
          transactions :=
            List.replicate NUM_OF_COINBASE_PER_BLOCK (create_coinbase n random_bits)
              ++ n.state.mempool.take NUM_OF_MEMPOOL_TXS_PER_BLOCK } : Block)).transactions
      n.state n.id_to_transaction
    simp [stateLatestHash, List.getLast?_concat, mine_block]

/-- C8: add_transaction_to_mempool returns false and changes nothing (and
calls no peer) when validation fails — in particular for every coinbase
transaction, which validation always rejects; when validation passes it
appends the transaction to the mempool, records it in the id index,
propagates it exactly to the peers whose mempool lacks its identifier, and
returns true. -/
theorem add_transaction_to_mempool_spec (C : Crypto) (n : Node)
    (t : Transaction) (conns : List Nat) (pm : Nat → List Transaction)
    (o sig : Bytes) (s : NodeState) (idx : IdIndex) :
    add_transaction_to_mempool C n t conns pm
      = (if validate_transaction_pre_mempool_access C t n.state n.id_to_transaction
         then (true,
               { n with
                  state := { n.state with mempool := n.state.mempool ++ [t] }
                  id_to_transaction :=
                    idxInsert n.id_to_transaction (t.get_id C) t },
               conns.filter (fun p =>
                 ¬ ((pm p).map (Transaction.get_id C)).contains (t.get_id C)))
         else (false, n, []))
    ∧ validate_transaction_pre_mempool_access C
        { output := o, input := none, signature := sig } s idx = false := by
  constructor
  · unfold add_transaction_to_mempool add_new_transaction_to_mempool
      publish_new_transaction
    split <;> rfl
  · rfl

/-- C3 (code bug): the success path of _validate_block_and_update_state
does apply every transaction and append the block, but the function then
falls off the end: it returns Python None (never True), contradicting its
own `-> bool` annotation and the spec's "Return true".  First part: no
input whatsoever makes it return True; second part: at a concrete
structurally valid block the state is updated yet the result is None
(falsy). -/
theorem apply_block_never_returns_true :
    (∀ (C : Crypto) (b : Block) (h : Bytes) (s : NodeState) (idx : IdIndex),
        (validate_block_and_update_state C b h s idx).2.2 ≠ some true)
    ∧ (validate_block_and_update_state toyCrypto
         { prev_block_hash := GENESIS_BLOCK_PREV
           transactions := [{ output := [5], input := none, signature := [9] }] }
         (Block.get_hash toyCrypto
           { prev_block_hash := GENESIS_BLOCK_PREV
             transactions := [{ output := [5], input := none, signature := [9] }] })
         { blockchain := [], utxo := [], mempool := [] } []).1.blockchain
        = [{ prev_block_hash := GENESIS_BLOCK_PREV
             transactions := [{ output := [5], input := none, signature := [9] }] }]
    ∧ (validate_block_and_update_state toyCrypto
         { prev_block_hash := GENESIS_BLOCK_PREV
           transactions := [{ output := [5], input := none, signature := [9] }] }
         (Block.get_hash toyCrypto
           { prev_block_hash := GENESIS_BLOCK_PREV
             transactions := [{ output := [5], input := none, signature := [9] }] })
         { blockchain := [], utxo := [], mempool := [] } []).1.utxo
        = [{ output := [5], input := none, signature := [9] }]
    ∧ (validate_block_and_update_state toyCrypto
         { prev_block_hash := GENESIS_BLOCK_PREV
           transactions := [{ output := [5], input := none, signature := [9] }] }
         (Block.get_hash toyCrypto
           { prev_block_hash := GENESIS_BLOCK_PREV
             transactions := [{ output := [5], input := none, signature := [9] }] })
         { blockchain := [], utxo := [], mempool := [] } []).2.2 = none := by
  refine ⟨?_, by decide, by decide, by decide⟩
  intro C b h s idx
  unfold validate_block_and_update_state
  split
  · simp
  · split <;> simp

/-- C2 (code bug): because _validate_block_and_update_state returns Python
None (falsy) on success, _add_new_branch_to_state stops after the FIRST
block of every branch.  Concretely: a branch of two blocks, both of which
are individually accepted when applied in sequence (so the branch should be
applied in full), leaves only the first block applied. -/
theorem add_new_branch_truncation_bug :
    ∃ (b1 b2 : Block) (h1 h2 : Bytes) (s0 : NodeState),
      s0.blockchain = []
      ∧ (validate_block_and_update_state toyCrypto b1 h1 s0 []).2.2 = none
      ∧ (validate_block_and_update_state toyCrypto b2 h2
          (validate_block_and_update_state toyCrypto b1 h1 s0 []).1
          (validate_block_and_update_state toyCrypto b1 h1 s0 []).2.1).2.2 = none
      ∧ (validate_block_and_update_state toyCrypto b2 h2
          (validate_block_and_update_state toyCrypto b1 h1 s0 []).1
          (validate_block_and_update_state toyCrypto b1 h1 s0 []).2.1).1.blockchain
          = [b1, b2]
      ∧ (add_new_branch_to_state toyCrypto [(b1, h1), (b2, h2)] s0 []).1.blockchain
          = [b1] := by
  refine ⟨{ prev_block_hash := GENESIS_BLOCK_PREV
            transactions := [{ output := [5], input := none, signature := [9] }] },
          { prev_block_hash := Block.get_hash toyCrypto
              { prev_block_hash := GENESIS_BLOCK_PREV
                transactions := [{ output := [5], input := none, signature := [9] }] }
            transactions := [{ output := [8], input := none, signature := [8] }] },
          Block.get_hash toyCrypto
            { prev_block_hash := GENESIS_BLOCK_PREV
              transactions := [{ output := [5], input := none, signature := [9] }] },
          Block.get_hash toyCrypto
            { prev_block_hash := Block.get_hash toyCrypto
                { prev_block_hash := GENESIS_BLOCK_PREV
                  transactions := [{ output := [5], input := none, signature := [9] }] }
              transactions := [{ output := [8], input := none, signature := [8] }] },
          { blockchain := [], utxo := [], mempool := [] },
          rfl, ?_, ?_, ?_, ?_⟩ <;> decide

/-- C10: _apply_block validates all non-coinbase transactions of a block
against the same pre-block state (no state update between the checks):
there is a state and a block holding two distinct non-coinbase transactions
spending the same utxo entry, each individually passing validation against
that state, and the block is accepted with both transactions applied. -/
theorem apply_block_accepts_intra_block_double_spend :
    ∃ (s : NodeState) (idx : IdIndex) (blk : Block) (t1 t2 : Transaction),
      t1 ∈ blk.transactions ∧ t2 ∈ blk.transactions
      ∧ t1 ≠ t2
      ∧ t1.is_coinbase = false ∧ t2.is_coinbase = false
      ∧ t1.input = t2.input
      ∧ (∃ u ∈ s.utxo, t1.input = some (u.get_id toyCrypto))
      ∧ validate_transaction_pre_mempool_access toyCrypto t1 s idx = true
      ∧ validate_transaction_pre_mempool_access toyCrypto t2 s idx = true
      ∧ (validate_block_and_update_state toyCrypto blk
          (blk.get_hash toyCrypto) s idx).2.2 = none
      ∧ t1 ∈ (validate_block_and_update_state toyCrypto blk
          (blk.get_hash toyCrypto) s idx).1.utxo
      ∧ t2 ∈ (validate_block_and_update_state toyCrypto blk
          (blk.get_hash toyCrypto) s idx).1.utxo
      ∧ (validate_block_and_update_state toyCrypto blk
          (blk.get_hash toyCrypto) s idx).1.blockchain
          = s.blockchain ++ [blk] := by
  refine ⟨{ blockchain := []
            utxo := [{ output := [1], input := none, signature := [9] }]
            mempool := [] },
          [(Transaction.get_id toyCrypto
              { output := [1], input := none, signature := [9] },
            { output := [1], input := none, signature := [9] })],
          { prev_block_hash := GENESIS_BLOCK_PREV
            transactions :=
              [{ output := [6], input := none, signature := [6] },
               { output := [2]
                 input := some (Transaction.get_id toyCrypto
                   { output := [1], input := none, signature := [9] })
                 signature := [1] ++ (Transaction.get_id toyCrypto
                   { output := [1], input := none, signature := [9] }) ++ [2] },
               { output := [3]
                 input := some (Transaction.get_id toyCrypto
                   { output := [1], input := none, signature := [9] })
                 signature := [1] ++ (Transaction.get_id toyCrypto
                   { output := [1], input := none, signature := [9] }) ++ [3] }] },
          { output := [2]
            input := some (Transaction.get_id toyCrypto
              { output := [1], input := none, signature := [9] })
            signature := [1] ++ (Transaction.get_id toyCrypto
              { output := [1], input := none, signature := [9] }) ++ [2] },
          { output := [3]
            input := some (Transaction.get_id toyCrypto
              { output := [1], input := none, signature := [9] })
            signature := [1] ++ (Transaction.get_id toyCrypto
              { output := [1], input := none, signature := [9] }) ++ [3] },
          ?_, ?_, ?_, ?_, ?_, ?_, ?_, ?_, ?_, ?_, ?_, ?_, ?_⟩ <;> decide

/-- C7: create_transaction returns Python None exactly when the list of
utxo entries owned by the node minus the coins frozen by a mempool entry is
empty, and then the node is unchanged and nothing is propagated; otherwise
it returns a transaction spending one available coin: input is that coin's
id, output is the target, the signature is the node's signature over
input concatenated with target, and the transaction is admitted to the own
mempool (and propagated).  The hypothesis names the frozen-coin list
computed by the source's index lookups (whose failure would be a KeyError). -/
theorem create_transaction_spec (C : Crypto) (n : Node) (target : Bytes)
    (conns : List Nat) (pm : Nat → List Transaction) (frozen : List Transaction)
    (hf : lookupSpent n.id_to_transaction
        (n.state.mempool.filter (fun t =>
          (((get_my_unspent_transactions n).map (Transaction.get_id C)).map
            some).contains t.input)) = some frozen) :
    ((get_my_unspent_transactions n).filter (fun c => ¬ frozen.contains c) = [] →
      create_transaction C n target conns pm = some (none, n, []))
    ∧ (∀ c rest,
        (get_my_unspent_transactions n).filter (fun c => ¬ frozen.contains c)
          = c :: rest →
        c ∈ get_my_unspent_transactions n
        ∧ frozen.contains c = false
        ∧ create_transaction C n target conns pm
            = some (some (sign_new_transaction C n (c.get_id C) target),
                    { n with
                       state := { n.state with mempool := n.state.mempool
                         ++ [sign_new_transaction C n (c.get_id C) target] }
                       id_to_transaction := idxInsert n.id_to_transaction
                         ((sign_new_transaction C n (c.get_id C) target).get_id C)
                         (sign_new_transaction C n (c.get_id C) target) },
                    publish_new_transaction C
                      (sign_new_transaction C n (c.get_id C) target) conns pm)
        ∧ (sign_new_transaction C n (c.get_id C) target).input = some (c.get_id C)
        ∧ (sign_new_transaction C n (c.get_id C) target).output = target
        ∧ (sign_new_transaction C n (c.get_id C) target).signature
            = C.sign (c.get_id C ++ target) n.private_key) := by
  have hg : get_unspent_owned_transaction C n
      = some ((get_my_unspent_transactions n).filter
          (fun c => ¬ frozen.contains c)).head? := by
    unfold get_unspent_owned_transaction
    dsimp only
    rw [hf]
  constructor
  · intro h0
    unfold create_transaction
    rw [hg, h0]
    rfl
  · intro c rest hcr
    have hmem : c ∈ (get_my_unspent_transactions n).filter
        (fun x => ¬ frozen.contains x) := by
      rw [hcr]; exact List.mem_cons_self c rest
    rw [List.mem_filter] at hmem
    refine ⟨hmem.1, by simpa using hmem.2, ?_, rfl, rfl, rfl⟩
    unfold create_transaction
    rw [hg, hcr]
    rfl

/-- Witness for C7 at a fresh node (no owned funds: Python None, node
unchanged, nothing propagated). -/
theorem create_transaction_spec_witness :
    create_transaction toyCrypto
      { private_key := [1], public_key := [1]
        state := { blockchain := [], utxo := [], mempool := [] }
        id_to_transaction := [] } [2] [] (fun _ => [])
      = some (none,
          { private_key := [1], public_key := [1]
            state := { blockchain := [], utxo := [], mempool := [] }
            id_to_transaction := [] }, []) :=
  (create_transaction_spec toyCrypto
    { private_key := [1], public_key := [1]
      state := { blockchain := [], utxo := [], mempool := [] }
      id_to_transaction := [] } [2] [] (fun _ => []) [] rfl).1 (by decide)

/-- C1: when the known-check passes (hash not on the current chain) and
fork discovery succeeds, a candidate whose potential length is at most the
incumbent's is ignored with the state unchanged and nothing published;
otherwise the state is replaced by the speculatively built state exactly
when that state's chain is strictly longer than the incumbent chain, and on
adoption the node publishes its new latest hash to every peer (and
otherwise keeps its state and publishes nothing). -/
theorem get_introduced_adoption_spec (C : Crypto) (n : Node) (block_hash : Bytes)
    (getBlock : Bytes → Option Block) (fuel : Nat) (conns : List Nat)
    (fd : ForkData) (s1 : NodeState) (idx1 : IdIndex)
    (hunknown : (get_blockchain_hashes C n.state).contains block_hash = false)
    (hfind : find_forking_point C n block_hash getBlock fuel = some fd)
    (hreorg : reorg_blockchain C n fd = some (s1, idx1)) :
    ∃ n1 msgs,
      get_introduced_to_new_block C n block_hash getBlock fuel conns
        = some (n1, msgs)
      ∧ (fd.get_potential_forked_chain_len (get_blockchain_hashes C n.state)
            ≤ (get_blockchain_hashes C n.state).length →
          n1 = n ∧ msgs = [])
      ∧ ((get_blockchain_hashes C n.state).length
            < fd.get_potential_forked_chain_len (get_blockchain_hashes C n.state) →
          (n.state.blockchain.length < s1.blockchain.length →
              n1.state = s1
              ∧ msgs = conns.map (fun p => (p, stateLatestHash C s1)))
          ∧ (¬ n.state.blockchain.length < s1.blockchain.length →
              n1.state = n.state ∧ msgs = [])) := by
  unfold get_introduced_to_new_block
  dsimp only
  rw [hfind]
  simp only [hunknown, Bool.false_eq_true, if_false]
  by_cases hp : fd.get_potential_forked_chain_len (get_blockchain_hashes C n.state)
      ≤ (get_blockchain_hashes C n.state).length
  · rw [if_pos hp]
    exact ⟨n, [], rfl, fun _ => ⟨rfl, rfl⟩, fun hlt => absurd hp (by omega)⟩
  · rw [if_neg hp]
    rw [hreorg]
    dsimp only
    by_cases hl : n.state.blockchain.length < s1.blockchain.length
    · rw [if_pos hl]
      exact ⟨_, _, rfl, fun hple => absurd hple hp,
        fun _ => ⟨fun _ => ⟨rfl, rfl⟩, fun h2 => absurd hl h2⟩⟩
    · rw [if_neg hl]
      exact ⟨_, _, rfl, fun hple => absurd hple hp,
        fun _ => ⟨fun h2 => absurd h2 hl, fun _ => ⟨rfl, rfl⟩⟩⟩

/-- Witness for C1: a fresh node learns of a one-block chain from a peer,
adopts it and publishes the new tip to its peer. -/
theorem get_introduced_adoption_spec_witness :
    ∃ n1 msgs,
      get_introduced_to_new_block toyCrypto
        { private_key := [1]
          public_key := [1]
          state := { blockchain := [], utxo := [], mempool := [] }
          id_to_transaction := [] }
        (Block.get_hash toyCrypto
          { prev_block_hash := GENESIS_BLOCK_PREV
            transactions := [{ output := [5], input := none, signature := [9] }] })
        (fun h => if h = Block.get_hash toyCrypto
            { prev_block_hash := GENESIS_BLOCK_PREV
              transactions := [{ output := [5], input := none, signature := [9] }] }
          then some { prev_block_hash := GENESIS_BLOCK_PREV
                      transactions :=
                        [{ output := [5], input := none, signature := [9] }] }
          else none)
        2 [7] = some (n1, msgs)
      ∧ n1.state
          = { blockchain :=
                [{ prev_block_hash := GENESIS_BLOCK_PREV
                   transactions :=
                     [{ output := [5], input := none, signature := [9] }] }]
              utxo := [{ output := [5], input := none, signature := [9] }]
              mempool := [] }
      ∧ msgs = [(7, stateLatestHash toyCrypto
          { blockchain :=
              [{ prev_block_hash := GENESIS_BLOCK_PREV
                 transactions :=
                   [{ output := [5], input := none, signature := [9] }] }]
            utxo := [{ output := [5], input := none, signature := [9] }]
            mempool := [] })] := by
  obtain ⟨n1, msgs, heq, hig, himp⟩ := get_introduced_adoption_spec toyCrypto
    { private_key := [1]
      public_key := [1]
      state := { blockchain := [], utxo := [], mempool := [] }
      id_to_transaction := [] }
    (Block.get_hash toyCrypto
      { prev_block_hash := GENESIS_BLOCK_PREV
        transactions := [{ output := [5], input := none, signature := [9] }] })
    (fun h => if h = Block.get_hash toyCrypto
        { prev_block_hash := GENESIS_BLOCK_PREV
          transactions := [{ output := [5], input := none, signature := [9] }] }
      then some { prev_block_hash := GENESIS_BLOCK_PREV
                  transactions :=
                    [{ output := [5], input := none, signature := [9] }] }
      else none)
    2 [7]
    { fork_block_hash := GENESIS_BLOCK_PREV
      new_branch := [{ prev_block_hash := GENESIS_BLOCK_PREV
                       transactions :=
                         [{ output := [5], input := none, signature := [9] }] }]
      new_branch_hashes := [Block.get_hash toyCrypto
        { prev_block_hash := GENESIS_BLOCK_PREV
          transactions := [{ output := [5], input := none, signature := [9] }] }] }
    { blockchain := [{ prev_block_hash := GENESIS_BLOCK_PREV
                       transactions :=
                         [{ output := [5], input := none, signature := [9] }] }]
      utxo := [{ output := [5], input := none, signature := [9] }]
      mempool := [] }
    [(Transaction.get_id toyCrypto
        { output := [5], input := none, signature := [9] },
      { output := [5], input := none, signature := [9] })]
    (by decide) (by decide) (by decide)
  have h3 := (himp (by decide)).1 (by decide)
  exact ⟨n1, msgs, heq, h3.1, by simpa using h3.2⟩

/-! ### Lemmas toward the chain and mempool invariants -/

theorem pyTruthy_validate_false (C : Crypto) (b : Block) (h : Bytes)
    (s : NodeState) (idx : IdIndex) :
    pyTruthy (validate_block_and_update_state C b h s idx).2.2 = false := by
  unfold validate_block_and_update_state
  split
  · rfl
  · split <;> rfl

theorem add_new_branch_eq (C : Crypto) (pairs : List (Block × Bytes))
    (s : NodeState) (idx : IdIndex) :
    add_new_branch_to_state C pairs s idx
      = match pairs with
        | [] => (s, idx)
        | (b, h) :: _ =>
          ((validate_block_and_update_state C b h s idx).1,
           (validate_block_and_update_state C b h s idx).2.1) := by
  match pairs with
  | [] => rfl
  | (b, h) :: rest =>
    unfold add_new_branch_to_state
    dsimp only
    rw [pyTruthy_validate_false]
    simp

theorem validate_block_result (C : Crypto) (b : Block) (h : Bytes)
    (s : NodeState) (idx : IdIndex) :
    validate_block_and_update_state C b h s idx = (s, idx, some false)
    ∨ (validate_block_structure C b h = true
       ∧ validate_block_and_update_state C b h s idx
           = ({ (b.get_transactions.foldl
                  (fun (p : NodeState × IdIndex) t =>
                    introduce_valid_transaction_into_state C t p.1 p.2)
                  (s, idx)).1 with
                  blockchain := (b.get_transactions.foldl
                    (fun (p : NodeState × IdIndex) t =>
                      introduce_valid_transaction_into_state C t p.1 p.2)
                    (s, idx)).1.blockchain ++ [b] },
              (b.get_transactions.foldl
                (fun (p : NodeState × IdIndex) t =>
                  introduce_valid_transaction_into_state C t p.1 p.2)
                (s, idx)).2, none)) := by
  unfold validate_block_and_update_state
  split
  · exact Or.inl rfl
  · split
    · exact Or.inl rfl
    · rename_i hstruct _
      exact Or.inr ⟨by simpa using hstruct, rfl⟩

theorem validate_block_structure_hash (C : Crypto) (b : Block) (h : Bytes)
    (hv : validate_block_structure C b h = true) : b.get_hash C = h := by
  unfold validate_block_structure at hv
  simp only [Bool.and_eq_true, decide_eq_true_eq] at hv
  exact hv.1.1

theorem tipFrom_cons (C : Crypto) (p : Bytes) (x : Block) (xs : List Block) :
    tipFrom C p (x :: xs) = tipFrom C (x.get_hash C) xs := by
  cases xs <;> rfl

theorem stateLatestHash_eq_tipFrom (C : Crypto) (s : NodeState) :
    stateLatestHash C s = tipFrom C GENESIS_BLOCK_PREV s.blockchain := rfl

theorem linkedFrom_append (C : Crypto) (b : Block) :
    ∀ (l : List Block) (p : Bytes), linkedFrom C p l →
      b.get_prev_block_hash = tipFrom C p l → linkedFrom C p (l ++ [b]) := by
  intro l
  induction l with
  | nil => intro p _ hb; exact ⟨hb, trivial⟩
  | cons x xs ih =>
    intro p hl hb
    exact ⟨hl.1, ih (x.get_hash C) hl.2 (by rwa [tipFrom_cons] at hb)⟩

theorem linkedFrom_append_inv (C : Crypto) (b : Block) :
    ∀ (l : List Block) (p : Bytes), linkedFrom C p (l ++ [b]) →
      linkedFrom C p l ∧ b.get_prev_block_hash = tipFrom C p l := by
  intro l
  induction l with
  | nil => intro p h; exact ⟨trivial, h.1⟩
  | cons x xs ih =>
    intro p h
    obtain ⟨h1, h2⟩ := ih (x.get_hash C) h.2
    exact ⟨⟨h.1, h1⟩, by rwa [tipFrom_cons]⟩

theorem rollback_latest_chain (C : Crypto) (s : NodeState) (idx : IdIndex)
    (s1 : NodeState) (b : Block)
    (h : rollback_latest_block C s idx = some (s1, b)) :
    s.blockchain = s1.blockchain ++ [b] := by
  unfold rollback_latest_block at h
  cases hlast : s.blockchain.getLast? with
  | none => rw [hlast] at h; exact absurd h (by simp)
  | some latest =>
    rw [hlast] at h
    dsimp only at h
    cases hsp : lookupSpent idx
        (latest.get_transactions.filter (fun t => ¬ t.is_coinbase)) with
    | none => rw [hsp] at h; exact absurd h (by simp)
    | some spent =>
      rw [hsp] at h
      simp only [Option.some.injEq, Prod.mk.injEq] at h
      obtain ⟨hs1, hb⟩ := h
      have hdrop := List.dropLast_append_getLast? latest (Option.mem_def.mpr hlast)
      rw [← hs1, ← hb]
      exact hdrop.symm

theorem rollbackLoop_linked (C : Crypto) (fork : Bytes) :
    ∀ (fuel : Nat) (s : NodeState) (idx : IdIndex) (s1 : NodeState),
      linkedFrom C GENESIS_BLOCK_PREV s.blockchain →
      rollbackLoop C fork fuel (stateLatestHash C s) s idx = some s1 →
      linkedFrom C GENESIS_BLOCK_PREV s1.blockchain
      ∧ stateLatestHash C s1 = fork := by
  intro fuel
  induction fuel with
  | zero =>
    intro s idx s1 hl h
    unfold rollbackLoop at h
    split at h
    · rename_i hcur
      cases h
      exact ⟨hl, hcur⟩
    · exact absurd h (by simp)
  | succ fuel ih =>
    intro s idx s1 hl h
    unfold rollbackLoop at h
    split at h
    · rename_i hcur
      cases h
      exact ⟨hl, hcur⟩
    · cases hr : rollback_latest_block C s idx with
      | none => rw [hr] at h; exact absurd h (by simp)
      | some pb =>
        obtain ⟨s', b⟩ := pb
        rw [hr] at h
        have hchain := rollback_latest_chain C s idx s' b hr
        rw [hchain] at hl
        obtain ⟨hl', htip⟩ := linkedFrom_append_inv C b s'.blockchain
          GENESIS_BLOCK_PREV hl
        rw [← stateLatestHash_eq_tipFrom] at htip
        · dsimp only at h
          rw [htip] at h
          exact ih s' idx s1 hl' h

theorem findForkLoop_spec (C : Crypto) (ch : List Bytes)
    (gB : Bytes → Option Block) :
    ∀ (fuel : Nat) (running : Bytes) (acc : List Block) (accH : List Bytes)
      (fd : ForkData),
      branchLinked C running (acc.zip accH) →
      findForkLoop C ch gB fuel running acc accH = some fd →
      branchLinked C fd.fork_block_hash
        (fd.new_branch.zip fd.new_branch_hashes)
      ∧ ch.contains fd.fork_block_hash = true := by
  intro fuel
  induction fuel with
  | zero =>
    intro running acc accH fd hb h
    unfold findForkLoop at h
    split at h
    · rename_i hc
      cases h
      exact ⟨hb, hc⟩
    · exact absurd h (by simp)
  | succ fuel ih =>
    intro running acc accH fd hb h
    unfold findForkLoop at h
    split at h
    · rename_i hc
      cases h
      exact ⟨hb, hc⟩
    · cases hg : gB running with
      | none => rw [hg] at h; exact absurd h (by simp)
      | some blk =>
        rw [hg] at h
        exact ih blk.get_prev_block_hash (blk :: acc) (running :: accH) fd
          ⟨rfl, hb⟩ h

theorem add_branch_linked (C : Crypto) (pairs : List (Block × Bytes))
    (s : NodeState) (idx : IdIndex)
    (hl : linkedFrom C GENESIS_BLOCK_PREV s.blockchain)
    (hb : branchLinked C (stateLatestHash C s) pairs) :
    linkedFrom C GENESIS_BLOCK_PREV
      (add_new_branch_to_state C pairs s idx).1.blockchain := by
  rw [add_new_branch_eq]
  cases pairs with
  | nil => exact hl
  | cons p rest =>
    obtain ⟨b, h⟩ := p
    dsimp only
    rcases validate_block_result C b h s idx with hres | ⟨hstruct, hres⟩
    · rw [hres]; exact hl
    · rw [hres]
      dsimp only
      rw [foldl_introduce_blockchain]
      exact linkedFrom_append C b s.blockchain GENESIS_BLOCK_PREV hl
        (by rw [← stateLatestHash_eq_tipFrom]; exact hb.1)

theorem add_tx_blockchain (C : Crypto) (n : Node) (t : Transaction)
    (conns : List Nat) (pm : Nat → List Transaction) :
    (add_transaction_to_mempool C n t conns pm).2.1.state.blockchain
      = n.state.blockchain := by
  unfold add_transaction_to_mempool add_new_transaction_to_mempool
  split <;> rfl

theorem create_transaction_cases (C : Crypto) (n : Node) (target : Bytes)
    (conns : List Nat) (pm : Nat → List Transaction) (r : Option Transaction)
    (n1 : Node) (called : List Nat)
    (h : create_transaction C n target conns pm = some (r, n1, called)) :
    (r = none ∧ n1 = n)
    ∨ (∃ c frozen,
        lookupSpent n.id_to_transaction
          (n.state.mempool.filter (fun t =>
            (((get_my_unspent_transactions n).map (Transaction.get_id C)).map
              some).contains t.input)) = some frozen
        ∧ ((get_my_unspent_transactions n).filter
            (fun x => ¬ frozen.contains x)).head? = some c
        ∧ r = some (sign_new_transaction C n (c.get_id C) target)
        ∧ n1 = { n with
                  state := { n.state with mempool := n.state.mempool
                    ++ [sign_new_transaction C n (c.get_id C) target] }
                  id_to_transaction := idxInsert n.id_to_transaction
                    ((sign_new_transaction C n (c.get_id C) target).get_id C)
                    (sign_new_transaction C n (c.get_id C) target) }) := by
  unfold create_transaction at h
  cases hu : get_unspent_owned_transaction C n with
  | none => rw [hu] at h; exact absurd h (by simp)
  | some o =>
    rw [hu] at h
    cases o with
    | none =>
      dsimp only at h
      simp only [Option.some.injEq, Prod.mk.injEq] at h
      exact Or.inl ⟨h.1.symm, h.2.1.symm⟩
    | some c =>
      dsimp only at h
      simp only [Option.some.injEq, Prod.mk.injEq] at h
      unfold get_unspent_owned_transaction at hu
      dsimp only at hu
      cases hf : lookupSpent n.id_to_transaction
          (n.state.mempool.filter (fun t =>
            (((get_my_unspent_transactions n).map (Transaction.get_id C)).map
              some).contains t.input)) with
      | none => rw [hf] at hu; exact absurd hu (by simp)
      | some frozen =>
        rw [hf] at hu
        simp only [Option.some.injEq] at hu
        exact Or.inr ⟨c, frozen, rfl, hu, h.1.symm, h.2.1.symm⟩

theorem mine_block_chain (C : Crypto) (n : Node) (random_bits : Bytes)
    (conns : List Nat) :
    ∃ b : Block, b.get_prev_block_hash = stateLatestHash C n.state
      ∧ (mine_block C n random_bits conns).2.1.state.blockchain
          = n.state.blockchain ++ [b] := by
  refine ⟨{ prev_block_hash := n.get_latest_hash C
            transactions :=
              List.replicate NUM_OF_COINBASE_PER_BLOCK (create_coinbase n random_bits)
                ++ n.state.mempool.take NUM_OF_MEMPOOL_TXS_PER_BLOCK }, rfl, ?_⟩
  show (introduce_valid_block_into_state C n _).state.blockchain = _
  unfold introduce_valid_block_into_state
  dsimp only
  rw [foldl_introduce_blockchain]

theorem reorg_cases (C : Crypto) (n : Node) (fd : ForkData) (s1 : NodeState)
    (idx1 : IdIndex) (h : reorg_blockchain C n fd = some (s1, idx1)) :
    ∃ s0, rollback_state_to_forking_point C fd.fork_block_hash n.state
        n.id_to_transaction = some s0
      ∧ (s1, idx1) = add_new_branch_to_state C
          (fd.new_branch.zip fd.new_branch_hashes) s0 n.id_to_transaction := by
  unfold reorg_blockchain at h
  cases hr : rollback_state_to_forking_point C fd.fork_block_hash n.state
      n.id_to_transaction with
  | none => rw [hr] at h; exact absurd h (by simp)
  | some s0 =>
    rw [hr] at h
    simp only [Option.some.injEq] at h
    exact ⟨s0, rfl, h.symm⟩

theorem get_introduced_cases (C : Crypto) (n : Node) (block_hash : Bytes)
    (getBlock : Bytes → Option Block) (fuel : Nat) (conns : List Nat)
    (n1 : Node) (msgs : List (Nat × Bytes))
    (h : get_introduced_to_new_block C n block_hash getBlock fuel conns
      = some (n1, msgs)) :
    n1 = n
    ∨ ∃ fd s1 idx1,
        find_forking_point C n block_hash getBlock fuel = some fd
        ∧ reorg_blockchain C n fd = some (s1, idx1)
        ∧ (n1 = { n with state := s1, id_to_transaction := idx1 }
           ∨ n1 = { n with id_to_transaction := idx1 }) := by
  unfold get_introduced_to_new_block at h
  dsimp only at h
  split at h
  · simp only [Option.some.injEq, Prod.mk.injEq] at h
    exact Or.inl h.1.symm
  · cases hfind : find_forking_point C n block_hash getBlock fuel with
    | none =>
      rw [hfind] at h
      simp only [Option.some.injEq, Prod.mk.injEq] at h
      exact Or.inl h.1.symm
    | some fd =>
      rw [hfind] at h
      dsimp only at h
      split at h
      · simp only [Option.some.injEq, Prod.mk.injEq] at h
        exact Or.inl h.1.symm
      · cases hre : reorg_blockchain C n fd with
        | none => rw [hre] at h; exact absurd h (by simp)
        | some p =>
          obtain ⟨s1, idx1⟩ := p
          rw [hre] at h
          dsimp only at h
          split at h
          · simp only [Option.some.injEq, Prod.mk.injEq] at h
            exact Or.inr ⟨fd, s1, idx1, rfl, hre, Or.inl h.1.symm⟩
          · simp only [Option.some.injEq, Prod.mk.injEq] at h
            exact Or.inr ⟨fd, s1, idx1, rfl, hre, Or.inr h.1.symm⟩

theorem reorg_linked (C : Crypto) (n : Node) (fd : ForkData) (s1 : NodeState)
    (idx1 : IdIndex)
    (hl : linkedFrom C GENESIS_BLOCK_PREV n.state.blockchain)
    (hfind : ∃ block_hash getBlock fuel,
      find_forking_point C n block_hash getBlock fuel = some fd)
    (hre : reorg_blockchain C n fd = some (s1, idx1)) :
    linkedFrom C GENESIS_BLOCK_PREV s1.blockchain := by
  obtain ⟨s0, hroll, heq⟩ := reorg_cases C n fd s1 idx1 hre
  obtain ⟨bh, gB, fuel, hf⟩ := hfind
  obtain ⟨hbl, _⟩ := findForkLoop_spec C (get_blockchain_hashes C n.state) gB
    fuel bh [] [] fd trivial hf
  obtain ⟨hl0, htip0⟩ := rollbackLoop_linked C fd.fork_block_hash
    (n.state.blockchain.length + 1) n.state n.id_to_transaction s0 hl hroll
  have : (s1, idx1).1 = (add_new_branch_to_state C
      (fd.new_branch.zip fd.new_branch_hashes) s0 n.id_to_transaction).1 := by
    rw [heq]
  rw [show s1 = (add_new_branch_to_state C
      (fd.new_branch.zip fd.new_branch_hashes) s0 n.id_to_transaction).1 from this]
  exact add_branch_linked C _ s0 n.id_to_transaction hl0 (by rw [htip0]; exact hbl)

theorem reachable_linked (C : Crypto) (n : Node) (h : Reachable C n) :
    linkedFrom C GENESIS_BLOCK_PREV n.state.blockchain := by
  induction h with
  | init priv pub => exact trivial
  | add_transaction n t conns pm ha hc ih =>
    have hb := add_tx_blockchain C n t conns pm
    exact (by rw [show linkedFrom C GENESIS_BLOCK_PREV
      (add_transaction_to_mempool C n t conns pm).2.1.state.blockchain
      = linkedFrom C GENESIS_BLOCK_PREV n.state.blockchain from by rw [hb]]; exact ih)
  | create n target conns pm r n1 called ha hc heq ih =>
    rcases create_transaction_cases C n target conns pm r n1 called heq with
      ⟨_, rfl⟩ | ⟨c, frozen, _, _, _, rfl⟩
    · exact ih
    · exact ih
  | mine n rb conns ha hc ih =>
    obtain ⟨b, hprev, hchain⟩ := mine_block_chain C n rb conns
    rw [hchain]
    exact linkedFrom_append C b _ _ ih
      (by rw [← stateLatestHash_eq_tipFrom]; exact hprev)
  | introduced n bh gB fuel conns n1 msgs ha hc heq ih =>
    rcases get_introduced_cases C n bh gB fuel conns n1 msgs heq with
      rfl | ⟨fd, s1, idx1, hfind, hre, hn1⟩
    · exact ih
    · rcases hn1 with rfl | rfl
      · exact reorg_linked C n fd s1 idx1 ih ⟨bh, gB, fuel, hfind⟩ hre
      · exact ih
  | clear n ha ih => exact ih

theorem linkedFrom_get (C : Crypto) :
    ∀ (l : List Block) (p : Bytes), linkedFrom C p l →
      (∀ i, (hi : i + 1 < l.length) →
          (l.get ⟨i + 1, hi⟩).prev_block_hash
            = (l.get ⟨i, by omega⟩).get_hash C)
      ∧ (∀ h0 : 0 < l.length, (l.get ⟨0, h0⟩).prev_block_hash = p) := by
  intro l
  induction l with
  | nil =>
    intro p _
    exact ⟨fun i hi => absurd hi (by simp), fun h0 => absurd h0 (by simp)⟩
  | cons x xs ih =>
    intro p hl
    obtain ⟨ih1, ih2⟩ := ih (x.get_hash C) hl.2
    refine ⟨?_, fun _ => hl.1⟩
    intro i hi
    cases i with
    | zero => exact ih2 (by simpa using hi)
    | succ j => exact ih1 j (by simpa using hi)

/-- C5: in every reachable node state the chain is well-linked: every block
points to the identifier of its predecessor and the first block points to
the genesis sentinel; every operation (mining, rollback, reorg
roll-forward, and the remaining public operations) preserves this. -/
theorem reachable_chain_well_linked (C : Crypto) (n : Node)
    (h : Reachable C n) :
    (∀ i, (hi : i + 1 < n.state.blockchain.length) →
        (n.state.blockchain.get ⟨i + 1, hi⟩).prev_block_hash
          = (n.state.blockchain.get ⟨i, by omega⟩).get_hash C)
    ∧ (∀ h0 : 0 < n.state.blockchain.length,
        (n.state.blockchain.get ⟨0, h0⟩).prev_block_hash
          = GENESIS_BLOCK_PREV) :=
  linkedFrom_get C n.state.blockchain GENESIS_BLOCK_PREV
    (reachable_linked C n h)

/-- Witness for C5: the chain of a fresh node that mined one block. -/
theorem reachable_chain_well_linked_witness :
    (∀ i, (hi : i + 1 < (mine_block toyCrypto
        { private_key := [1], public_key := [1]
          state := { blockchain := [], utxo := [], mempool := [] }
          id_to_transaction := [] } [3] []).2.1.state.blockchain.length) →
        ((mine_block toyCrypto
          { private_key := [1], public_key := [1]
            state := { blockchain := [], utxo := [], mempool := [] }
            id_to_transaction := [] } [3] []).2.1.state.blockchain.get
              ⟨i + 1, hi⟩).prev_block_hash
          = ((mine_block toyCrypto
            { private_key := [1], public_key := [1]
              state := { blockchain := [], utxo := [], mempool := [] }
              id_to_transaction := [] } [3] []).2.1.state.blockchain.get
                ⟨i, by omega⟩).get_hash toyCrypto)
    ∧ (∀ h0 : 0 < (mine_block toyCrypto
        { private_key := [1], public_key := [1]
          state := { blockchain := [], utxo := [], mempool := [] }
          id_to_transaction := [] } [3] []).2.1.state.blockchain.length,
        ((mine_block toyCrypto
          { private_key := [1], public_key := [1]
            state := { blockchain := [], utxo := [], mempool := [] }
            id_to_transaction := [] } [3] []).2.1.state.blockchain.get
              ⟨0, h0⟩).prev_block_hash = GENESIS_BLOCK_PREV) :=
  reachable_chain_well_linked toyCrypto _
    (Reachable.mine _ [3] [] (Reachable.init [1] [1]) (by decide))

/-! ### Lemmas toward the mempool/utxo invariant (C4) -/

theorem idxLookup_insert (idx : IdIndex) (k : Bytes) (v : Transaction)
    (key : Bytes) :
    idxLookup (idxInsert idx k v) key
      = if k = key then some v else idxLookup idx key := rfl

theorem idxLookup_mem_values (idx : IdIndex) :
    ∀ (k : Bytes) (v : Transaction), idxLookup idx k = some v →
      v ∈ idx.map Prod.snd := by
  induction idx with
  | nil => intro k v hv; exact absurd hv (by simp [idxLookup])
  | cons p rest ih =>
    intro k v hv
    obtain ⟨k', v'⟩ := p
    unfold idxLookup at hv
    split at hv
    · cases hv; exact List.mem_cons_self _ _
    · exact List.mem_cons_of_mem _ (ih k v hv)

theorem IdsCompatible_mono (C : Crypto) (idx : IdIndex)
    (ts ts' : List Transaction) (hsub : ts' ⊆ ts)
    (h : IdsCompatible C idx ts) : IdsCompatible C idx ts' := by
  intro t1 h1 t2 h2 hid
  rw [List.mem_append] at h1 h2
  refine h t1 ?_ t2 ?_ hid <;> rw [List.mem_append]
  · exact h1.elim (fun hx => Or.inl (hsub hx)) Or.inr
  · exact h2.elim (fun hx => Or.inl (hsub hx)) Or.inr

theorem IdsCompatible_head (C : Crypto) (idx : IdIndex) (t : Transaction)
    (ts : List Transaction) (h : IdsCompatible C idx (t :: ts)) :
    ∀ v ∈ idx.map Prod.snd, v.get_id C = t.get_id C → v = t := by
  intro v hv hid
  exact h v (by rw [List.mem_append]; exact Or.inr hv)
    t (by rw [List.mem_append]; exact Or.inl (List.mem_cons_self _ _)) hid

theorem IdsCompatible_shift (C : Crypto) (idx : IdIndex) (t : Transaction)
    (ts : List Transaction) (k : Bytes)
    (h : IdsCompatible C idx (t :: ts)) :
    IdsCompatible C (idxInsert idx k t) ts := by
  intro t1 h1 t2 h2 hid
  have hmem : ∀ x, x ∈ ts ++ (idxInsert idx k t).map Prod.snd →
      x ∈ (t :: ts) ++ idx.map Prod.snd := by
    intro x hx
    rw [List.mem_append] at hx
    rcases hx with hx | hx
    · rw [List.mem_append]; exact Or.inl (List.mem_cons_of_mem _ hx)
    · unfold idxInsert at hx
      rw [List.map_cons] at hx
      rcases List.mem_cons.mp hx with rfl | hx
      · rw [List.mem_append]; exact Or.inl (List.mem_cons_self _ _)
      · rw [List.mem_append]; exact Or.inr hx
  exact h t1 (hmem t1 h1) t2 (hmem t2 h2) hid

theorem introduce_step (C : Crypto) (t : Transaction) (s : NodeState)
    (idx : IdIndex) (hinv : StateInv C s idx)
    (hcompat : ∀ v ∈ idx.map Prod.snd, v.get_id C = t.get_id C → v = t) :
    StateInv C (introduce_valid_transaction_into_state C t s idx).1
      (introduce_valid_transaction_into_state C t s idx).2
    ∧ (∀ k v, idxLookup idx k = some v →
        idxLookup (introduce_valid_transaction_into_state C t s idx).2 k
          = some v) := by
  obtain ⟨hds, hcb, hmu, hreg, hcoh⟩ := hinv
  unfold introduce_valid_transaction_into_state
  dsimp only
  have hlook : ∀ k v, idxLookup idx k = some v →
      idxLookup (idxInsert idx (t.get_id C) t) k = some v := by
    intro k v hkv
    rw [idxLookup_insert]
    split
    · rename_i hk
      have hv := idxLookup_mem_values idx k v hkv
      have := hcompat v hv (by rw [hk]; exact (hcoh k v hkv))
      rw [this]
    · exact hkv
  refine ⟨⟨?_, ?_, ?_, ?_, ?_⟩, hlook⟩
  · exact hds.sublist (List.filter_sublist _)
  · intro m hm
    exact hcb m (List.mem_of_mem_filter hm)
  · intro m hm
    rw [List.mem_filter] at hm
    obtain ⟨hm1, hm2⟩ := hm
    rw [decide_eq_true_eq] at hm2
    obtain ⟨u, hu, hui⟩ := hmu m hm1
    cases ht : t.input with
    | none =>
      exact ⟨u, List.mem_append.mpr (Or.inl hu), hui⟩
    | some i =>
      by_cases hid : u.get_id C = i
      · exact absurd (by rw [hui, hid, ht]) hm2.2
      · exact ⟨u, List.mem_append.mpr (Or.inl (List.mem_filter.mpr
          ⟨hu, by simpa using hid⟩)), hui⟩
  · intro u hu
    rcases List.mem_append.mp hu with hu | hu
    · have hu' : u ∈ s.utxo := by
        cases ht : t.input with
        | none => rw [ht] at hu; exact hu
        | some i => rw [ht] at hu; exact List.mem_of_mem_filter hu
      exact hlook (u.get_id C) u (hreg u hu')
    · rcases List.mem_singleton.mp hu with rfl
      rw [idxLookup_insert, if_pos rfl]
  · intro k v hv
    rw [idxLookup_insert] at hv
    split at hv
    · rename_i hk; cases hv; rw [← hk]
    · exact hcoh k v hv

theorem foldl_introduce_inv (C : Crypto) (ts : List Transaction) :
    ∀ (s : NodeState) (idx : IdIndex),
      StateInv C s idx → IdsCompatible C idx ts →
      StateInv C
        (ts.foldl (fun (p : NodeState × IdIndex) t =>
          introduce_valid_transaction_into_state C t p.1 p.2) (s, idx)).1
        (ts.foldl (fun (p : NodeState × IdIndex) t =>
          introduce_valid_transaction_into_state C t p.1 p.2) (s, idx)).2
      ∧ (∀ k v, idxLookup idx k = some v →
          idxLookup (ts.foldl (fun (p : NodeState × IdIndex) t =>
            introduce_valid_transaction_into_state C t p.1 p.2) (s, idx)).2 k
            = some v) := by
  induction ts with
  | nil => intro s idx hinv _; exact ⟨hinv, fun k v hv => hv⟩
  | cons t ts ih =>
    intro s idx hinv hcomp
    obtain ⟨hinv1, hlook1⟩ := introduce_step C t s idx hinv
      (IdsCompatible_head C idx t ts hcomp)
    have hcomp1 : IdsCompatible C
        (introduce_valid_transaction_into_state C t s idx).2 ts := by
      show IdsCompatible C (idxInsert idx (t.get_id C) t) ts
      exact IdsCompatible_shift C idx t ts (t.get_id C) hcomp
    obtain ⟨hinv2, hlook2⟩ := ih
      (introduce_valid_transaction_into_state C t s idx).1
      (introduce_valid_transaction_into_state C t s idx).2 hinv1 hcomp1
    rw [List.foldl_cons]
    exact ⟨hinv2, fun k v hv => hlook2 k v (hlook1 k v hv)⟩

theorem lookupSpent_spec (idx : IdIndex) :
    ∀ (ms : List Transaction) (vs : List Transaction),
      lookupSpent idx ms = some vs →
      (∀ v ∈ vs, ∃ i, idxLookup idx i = some v)
      ∧ (∀ m ∈ ms, ∀ i, m.input = some i →
          ∀ v, idxLookup idx i = some v → v ∈ vs) := by
  intro ms
  induction ms with
  | nil =>
    intro vs h
    unfold lookupSpent at h
    cases h
    exact ⟨by simp, by simp⟩
  | cons m ms ih =>
    intro vs h
    unfold lookupSpent at h
    cases hb : m.input.bind (idxLookup idx) with
    | none => rw [hb] at h; exact absurd h (by simp)
    | some v0 =>
      rw [hb] at h
      cases hrest : lookupSpent idx ms with
      | none => rw [hrest] at h; exact absurd h (by simp)
      | some vs' =>
        rw [hrest] at h
        simp only [Option.some.injEq] at h
        subst h
        obtain ⟨ih1, ih2⟩ := ih vs' hrest
        constructor
        · intro v hv
          rcases List.mem_cons.mp hv with rfl | hv
          · cases hin : m.input with
            | none => rw [hin] at hb; exact absurd hb (by simp)
            | some i =>
              rw [hin] at hb
              exact ⟨i, hb⟩
          · exact ih1 v hv
        · intro m' hm' i hi v hv
          rcases List.mem_cons.mp hm' with rfl | hm'
          · rw [hi] at hb
            dsimp only [Option.bind] at hb
            rw [hv] at hb
            cases hb
            exact List.mem_cons_self _ _
          · exact List.mem_cons_of_mem _ (ih2 m' hm' i hi v hv)

theorem rollback_inv (C : Crypto) (s : NodeState) (idx : IdIndex)
    (s1 : NodeState) (b : Block)
    (h : rollback_latest_block C s idx = some (s1, b))
    (hinv : StateInv C s idx) : StateInv C s1 idx := by
  obtain ⟨hds, hcb, hmu, hreg, hcoh⟩ := hinv
  unfold rollback_latest_block at h
  cases hlast : s.blockchain.getLast? with
  | none => rw [hlast] at h; exact absurd h (by simp)
  | some latest =>
    rw [hlast] at h
    dsimp only at h
    cases hsp : lookupSpent idx
        (latest.get_transactions.filter (fun t => ¬ t.is_coinbase)) with
    | none => rw [hsp] at h; exact absurd h (by simp)
    | some spent =>
      rw [hsp] at h
      simp only [Option.some.injEq, Prod.mk.injEq] at h
      obtain ⟨hs1, _⟩ := h
      subst hs1
      obtain ⟨hsp1, _⟩ := lookupSpent_spec idx _ spent hsp
      refine ⟨?_, ?_, ?_, ?_, hcoh⟩
      · exact hds.sublist (List.filter_sublist _)
      · intro m hm
        exact hcb m (List.mem_of_mem_filter hm)
      · intro m hm
        rw [List.mem_filter] at hm
        obtain ⟨hm1, hm2⟩ := hm
        rw [decide_eq_true_eq] at hm2
        obtain ⟨u, hu, hui⟩ := hmu m hm1
        refine ⟨u, List.mem_append.mpr (Or.inl (List.mem_filter.mpr
          ⟨hu, ?_⟩)), hui⟩
        simp only [decide_eq_true_eq]
        intro hub
        refine hm2 ?_
        rw [hui]
        exact List.elem_iff.mpr (List.mem_map.mpr
          ⟨u.get_id C, List.mem_map.mpr ⟨u, List.elem_iff.mp hub, rfl⟩, rfl⟩)
      · intro u hu
        rcases List.mem_append.mp hu with hu | hu
        · exact hreg u (List.mem_of_mem_filter hu)
        · obtain ⟨i, hi⟩ := hsp1 u hu
          have := hcoh i u hi
          rw [this]
          exact hi

theorem rollbackLoop_inv (C : Crypto) (fork : Bytes) :
    ∀ (fuel : Nat) (cur : Bytes) (s : NodeState) (idx : IdIndex)
      (s1 : NodeState),
      StateInv C s idx →
      rollbackLoop C fork fuel cur s idx = some s1 →
      StateInv C s1 idx := by
  intro fuel
  induction fuel with
  | zero =>
    intro cur s idx s1 hinv h
    unfold rollbackLoop at h
    split at h
    · cases h; exact hinv
    · exact absurd h (by simp)
  | succ fuel ih =>
    intro cur s idx s1 hinv h
    unfold rollbackLoop at h
    split at h
    · cases h; exact hinv
    · cases hr : rollback_latest_block C s idx with
      | none => rw [hr] at h; exact absurd h (by simp)
      | some pb =>
        obtain ⟨s', b⟩ := pb
        rw [hr] at h
        exact ih _ s' idx s1 (rollback_inv C s idx s' b hr hinv) h

theorem validate_true_facts (C : Crypto) (t : Transaction) (s : NodeState)
    (idx : IdIndex)
    (h : validate_transaction_pre_mempool_access C t s idx = true) :
    ∃ i, t.input = some i
      ∧ (∃ u ∈ s.utxo, u.get_id C = i)
      ∧ ∀ m ∈ s.mempool, m.input ≠ some i := by
  unfold validate_transaction_pre_mempool_access at h
  cases ht : t.input with
  | none => rw [ht] at h; exact absurd h (by simp)
  | some i =>
    rw [ht] at h
    dsimp only at h
    by_cases hlen : List.length i ≠ SHA256_DIGEST_LEN
    · rw [if_pos hlen] at h; exact absurd h (by simp)
    · rw [if_neg hlen] at h
      cases hl : idxLookup idx i with
      | none => rw [hl] at h; exact absurd h (by simp)
      | some ibs =>
        rw [hl] at h
        dsimp only at h
        by_cases hv : ¬ C.verify (i ++ t.output) t.signature ibs.output = true
        · rw [if_pos hv] at h; exact absurd h (by simp)
        · rw [if_neg hv] at h
          by_cases hu : ¬ (s.utxo.map (Transaction.get_id C)).contains i = true
          · rw [if_pos hu] at h; exact absurd h (by simp)
          · rw [if_neg hu] at h
            push_neg at hu
            obtain ⟨u, hu1, hu2⟩ := List.mem_map.mp (List.elem_iff.mp hu)
            rw [decide_eq_true_eq] at h
            refine ⟨i, rfl, ⟨u, hu1, hu2⟩, ?_⟩
            intro m hm hmi
            exact h (List.elem_iff.mpr (List.mem_map.mpr ⟨m, hm, hmi⟩))

theorem state_inv_append_tx (C : Crypto) (s : NodeState) (idx : IdIndex)
    (t : Transaction) (i : Bytes)
    (hinv : StateInv C s idx)
    (hcompat : ∀ v ∈ idx.map Prod.snd, v.get_id C = t.get_id C → v = t)
    (hti : t.input = some i)
    (hex : ∃ u ∈ s.utxo, u.get_id C = i)
    (hnom : ∀ m ∈ s.mempool, m.input ≠ some i) :
    StateInv C { s with mempool := s.mempool ++ [t] }
      (idxInsert idx (t.get_id C) t) := by
  obtain ⟨hds, hcb, hmu, hreg, hcoh⟩ := hinv
  obtain ⟨u, hu, hui⟩ := hex
  refine ⟨?_, ?_, ?_, ?_, ?_⟩
  · unfold MempoolNoDoubleSpend
    dsimp only
    rw [List.pairwise_append]
    refine ⟨hds, List.pairwise_singleton _ _, ?_⟩
    intro a ha b hb
    rcases List.mem_singleton.mp hb with rfl
    rw [hti]
    exact hnom a ha
  · intro m hm
    rcases List.mem_append.mp hm with hm | hm
    · exact hcb m hm
    · rcases List.mem_singleton.mp hm with rfl
      simp [hti]
  · intro m hm
    rcases List.mem_append.mp hm with hm | hm
    · exact hmu m hm
    · rcases List.mem_singleton.mp hm with rfl
      exact ⟨u, hu, by rw [hti, hui]⟩
  · intro u' hu'
    rw [idxLookup_insert]
    split
    · rename_i hk
      have hv := idxLookup_mem_values idx _ _ (hreg u' hu')
      rw [hcompat u' hv hk.symm]
    · exact hreg u' hu'
  · intro k v hv
    rw [idxLookup_insert] at hv
    split at hv
    · rename_i hk; cases hv; rw [← hk]
    · exact hcoh k v hv

theorem add_tx_inv (C : Crypto) (n : Node) (t : Transaction)
    (conns : List Nat) (pm : Nat → List Transaction)
    (hinv : StateInv C n.state n.id_to_transaction)
    (hcomp : IdsCompatible C n.id_to_transaction [t]) :
    StateInv C (add_transaction_to_mempool C n t conns pm).2.1.state
      (add_transaction_to_mempool C n t conns pm).2.1.id_to_transaction := by
  unfold add_transaction_to_mempool add_new_transaction_to_mempool
  split
  · rename_i hval
    obtain ⟨i, hti, hex, hnom⟩ :=
      validate_true_facts C t n.state n.id_to_transaction hval
    exact state_inv_append_tx C n.state n.id_to_transaction t i hinv
      (IdsCompatible_head C n.id_to_transaction t [] hcomp) hti hex hnom
  · exact hinv

theorem clear_inv (C : Crypto) (n : Node)
    (hinv : StateInv C n.state n.id_to_transaction) :
    StateInv C (clear_mempool n).state (clear_mempool n).id_to_transaction := by
  obtain ⟨_, _, _, hreg, hcoh⟩ := hinv
  exact ⟨List.Pairwise.nil, (by intro m hm; cases hm), (by intro m hm; cases hm),
    hreg, hcoh⟩

theorem create_inv (C : Crypto) (n : Node) (target : Bytes)
    (conns : List Nat) (pm : Nat → List Transaction) (r : Option Transaction)
    (n1 : Node) (called : List Nat)
    (heq : create_transaction C n target conns pm = some (r, n1, called))
    (hinv : StateInv C n.state n.id_to_transaction)
    (hcomp : ∀ t, r = some t → IdsCompatible C n.id_to_transaction [t]) :
    StateInv C n1.state n1.id_to_transaction := by
  rcases create_transaction_cases C n target conns pm r n1 called heq with
    ⟨hr, rfl⟩ | ⟨c, frozen, hf, hc, hr, rfl⟩
  · exact hinv
  · have hcompat := IdsCompatible_head C n.id_to_transaction _ [] (hcomp _ hr)
    have hcmem : c ∈ (get_my_unspent_transactions n).filter
        (fun x => ¬ frozen.contains x) := List.mem_of_mem_head? hc
    rw [List.mem_filter] at hcmem
    obtain ⟨hcowned, hcnf⟩ := hcmem
    rw [decide_eq_true_eq] at hcnf
    have hcutxo : c ∈ n.state.utxo := by
      unfold get_my_unspent_transactions at hcowned
      exact List.mem_of_mem_filter hcowned
    have hnom : ∀ m ∈ n.state.mempool, m.input ≠ some (c.get_id C) := by
      intro m hm hmi
      have hmfil : m ∈ n.state.mempool.filter (fun t =>
          (((get_my_unspent_transactions n).map (Transaction.get_id C)).map
            some).contains t.input) := by
        refine List.mem_filter.mpr ⟨hm, ?_⟩
        rw [hmi]
        exact List.elem_iff.mpr (List.mem_map.mpr
          ⟨c.get_id C, List.mem_map.mpr ⟨c, hcowned, rfl⟩, rfl⟩)
      obtain ⟨_, hpart2⟩ := lookupSpent_spec n.id_to_transaction _ frozen hf
      have hcfrozen : c ∈ frozen := hpart2 m hmfil (c.get_id C) hmi c
        (hinv.2.2.2.1 c hcutxo)
      exact hcnf (List.elem_iff.mpr hcfrozen)
    exact state_inv_append_tx C n.state n.id_to_transaction _ (c.get_id C)
      hinv hcompat rfl ⟨c, hcutxo, rfl⟩ hnom

theorem mine_inv (C : Crypto) (n : Node) (random_bits : Bytes)
    (conns : List Nat)
    (hinv : StateInv C n.state n.id_to_transaction)
    (hcomp : IdsCompatible C n.id_to_transaction
      (create_coinbase n random_bits
        :: n.state.mempool.take NUM_OF_MEMPOOL_TXS_PER_BLOCK)) :
    StateInv C (mine_block C n random_bits conns).2.1.state
      (mine_block C n random_bits conns).2.1.id_to_transaction := by
  have hfold := foldl_introduce_inv C
    (create_coinbase n random_bits
      :: n.state.mempool.take NUM_OF_MEMPOOL_TXS_PER_BLOCK)
    n.state n.id_to_transaction hinv hcomp
  exact hfold.1

theorem mem_branchTransactions (blk : Block) :
    ∀ branch : List Block, blk ∈ branch →
      blk.get_transactions ⊆ branchTransactions branch := by
  intro branch
  induction branch with
  | nil => intro h; cases h
  | cons b0 br ih =>
    intro hm x hx
    show x ∈ b0.transactions ++ branchTransactions br
    rcases List.mem_cons.mp hm with rfl | hm
    · exact List.mem_append.mpr (Or.inl hx)
    · exact List.mem_append.mpr (Or.inr (ih hm hx))

theorem zip_head_mem (b : Block) (h : Bytes) (rest : List (Block × Bytes))
    (branch : List Block) (hashes : List Bytes)
    (hz : branch.zip hashes = (b, h) :: rest) : b ∈ branch := by
  cases branch with
  | nil => exact absurd hz (by simp)
  | cons b0 br =>
    cases hashes with
    | nil => exact absurd hz (by simp)
    | cons h0 hr =>
      rw [List.zip_cons_cons] at hz
      simp only [List.cons.injEq, Prod.mk.injEq] at hz
      obtain ⟨⟨rfl, -⟩, -⟩ := hz
      exact List.mem_cons_self _ _

theorem introduced_inv (C : Crypto) (n : Node) (block_hash : Bytes)
    (getBlock : Bytes → Option Block) (fuel : Nat) (conns : List Nat)
    (n1 : Node) (msgs : List (Nat × Bytes))
    (heq : get_introduced_to_new_block C n block_hash getBlock fuel conns
      = some (n1, msgs))
    (hinv : StateInv C n.state n.id_to_transaction)
    (hcomp : ∀ fd, find_forking_point C n block_hash getBlock fuel = some fd →
      IdsCompatible C n.id_to_transaction (branchTransactions fd.new_branch)) :
    StateInv C n1.state n1.id_to_transaction := by
  rcases get_introduced_cases C n block_hash getBlock fuel conns n1 msgs heq
    with rfl | ⟨fd, s1, idx1, hfind, hre, hn1⟩
  · exact hinv
  · have hcompat := hcomp fd hfind
    obtain ⟨s0, hroll, hbranch⟩ := reorg_cases C n fd s1 idx1 hre
    have hinv0 : StateInv C s0 n.id_to_transaction := by
      unfold rollback_state_to_forking_point at hroll
      exact rollbackLoop_inv C fd.fork_block_hash _ _ n.state
        n.id_to_transaction s0 hinv hroll
    rw [add_new_branch_eq] at hbranch
    cases hz : fd.new_branch.zip fd.new_branch_hashes with
    | nil =>
      rw [hz] at hbranch
      simp only [Prod.mk.injEq] at hbranch
      obtain ⟨rfl, rfl⟩ := hbranch
      rcases hn1 with rfl | rfl
      · exact hinv0
      · exact ⟨hinv.1, hinv.2.1, hinv.2.2.1, hinv.2.2.2.1, hinv.2.2.2.2⟩
    | cons p rest =>
      obtain ⟨b, h⟩ := p
      rw [hz] at hbranch
      dsimp only at hbranch
      rcases validate_block_result C b h s0 n.id_to_transaction with
        hres | ⟨hstruct, hres⟩
      · rw [hres] at hbranch
        simp only [Prod.mk.injEq] at hbranch
        obtain ⟨rfl, rfl⟩ := hbranch
        rcases hn1 with rfl | rfl
        · exact hinv0
        · exact ⟨hinv.1, hinv.2.1, hinv.2.2.1, hinv.2.2.2.1, hinv.2.2.2.2⟩
      · rw [hres] at hbranch
        simp only [Prod.mk.injEq] at hbranch
        obtain ⟨rfl, rfl⟩ := hbranch
        have hcompb : IdsCompatible C n.id_to_transaction b.get_transactions :=
          IdsCompatible_mono C n.id_to_transaction _ _
            (mem_branchTransactions b fd.new_branch
              (zip_head_mem b h rest fd.new_branch fd.new_branch_hashes hz))
            hcompat
        have hfold := foldl_introduce_inv C b.get_transactions s0
          n.id_to_transaction hinv0 hcompb
        rcases hn1 with rfl | rfl
        · exact hfold.1
        · exact ⟨hinv.1, hinv.2.1, hinv.2.2.1,
            fun u hu => hfold.2 (u.get_id C) u (hinv.2.2.2.1 u hu),
            hfold.1.2.2.2.2⟩

theorem reachable_state_inv (C : Crypto) (n : Node) (h : Reachable C n) :
    StateInv C n.state n.id_to_transaction := by
  induction h with
  | init priv pub =>
    exact ⟨List.Pairwise.nil, (by intro m hm; cases hm), (by intro m hm; cases hm),
      (by intro u hu; cases hu), (by intro k v hv; cases hv)⟩
  | add_transaction n t conns pm ha hc ih => exact add_tx_inv C n t conns pm ih hc
  | create n target conns pm r n1 called ha hc heq ih =>
    exact create_inv C n target conns pm r n1 called heq ih hc
  | mine n rb conns ha hc ih => exact mine_inv C n rb conns ih hc
  | introduced n bh gB fuel conns n1 msgs ha hc heq ih =>
    exact introduced_inv C n bh gB fuel conns n1 msgs heq ih hc
  | clear n ha ih => exact clear_inv C n ih

/-- C4: in every reachable node state, no two mempool entries share an
input, no mempool entry is coinbase, and every mempool entry spends the id
of some utxo entry; every operation (admission, transaction creation,
mining, block ingestion with rollback and roll-forward, clear_mempool)
preserves this.  Reachability carries the standard assumption that SHA-256
ids of the transactions observed along the run do not collide
(IdsCompatible side conditions of `Reachable`). -/
theorem reachable_mempool_invariants (C : Crypto) (n : Node)
    (h : Reachable C n) :
    MempoolNoDoubleSpend n.state ∧ MempoolNoCoinbase n.state
    ∧ MempoolInputsUnspent C n.state :=
  ⟨(reachable_state_inv C n h).1, (reachable_state_inv C n h).2.1,
   (reachable_state_inv C n h).2.2.1⟩

/-- Witness for C4: the invariant at a node that admitted a valid
transaction after mining a block. -/
theorem reachable_mempool_invariants_witness :
    MempoolNoDoubleSpend (mine_block toyCrypto
      { private_key := [1], public_key := [1]
        state := { blockchain := [], utxo := [], mempool := [] }
        id_to_transaction := [] } [3] []).2.1.state
    ∧ MempoolNoCoinbase (mine_block toyCrypto
      { private_key := [1], public_key := [1]
        state := { blockchain := [], utxo := [], mempool := [] }
        id_to_transaction := [] } [3] []).2.1.state
    ∧ MempoolInputsUnspent toyCrypto (mine_block toyCrypto
      { private_key := [1], public_key := [1]
        state := { blockchain := [], utxo := [], mempool := [] }
        id_to_transaction := [] } [3] []).2.1.state :=
  reachable_mempool_invariants toyCrypto _
    (Reachable.mine _ [3] [] (Reachable.init [1] [1]) (by decide))

end BitcoinProto
